import Mathlib

/-
Shallow embedding of the petrovich-rs inflection engine (src/lib.rs,
src/gender.rs).  Rust strings are modelled as lists of characters
(`Word`); where the source measures strings in bytes (`str::len`) the
model uses `byteLen`, the sum of the UTF-8 sizes of the characters.
The compiled rule tables (`RULES`, `GENDER`) are external data produced
by build.rs from yml files that are not part of the engine; the engine
functions are therefore parameterised by the table, exactly as the
source functions are after inlining the constant.
-/

namespace Petrovich

/-- Possible grammatical genders (src/gender.rs, enum Gender). -/
inductive Gender
  | Male
  | Female
  | Androgynous
deriving DecidableEq, Repr

/-- Possible grammatical cases (src/lib.rs, enum Case). -/
inductive Case
  | Genitive
  | Dative
  | Accusative
  | Instrumental
  | Prepositional
deriving DecidableEq, Repr

/-- Ordinal of a case, mirroring Rust's `case as usize` with the
declaration order of the enum. -/
def Case.toIdx : Case → Nat
  | Case.Genitive => 0
  | Case.Dative => 1
  | Case.Accusative => 2
  | Case.Instrumental => 3
  | Case.Prepositional => 4

/-- Rule tags (src/lib.rs, enum RuleTag). -/
inductive RuleTag
  | FirstWord
deriving DecidableEq, Repr

/-- A name fragment: Rust `&str`, modelled as its character sequence. -/
abbrev Word := List Char

/-- `type Modifier = Option<(usize, &'static str)>` (src/lib.rs). -/
abbrev Modifier := Option (Nat × Word)

/-- UTF-8 byte length of a word, the model of Rust `str::len`. -/
def byteLen (w : Word) : Nat := (w.map Char.utf8Size).sum

/-- Model of Rust `str::to_lowercase` as applied before matching.  The
source uses full Unicode lowercasing; a per-character lowering stands in
for it here, and every theorem below holds for an arbitrary lowering
function since matching is always stated about the already-lowercased
fragment. -/
def toLowercase (w : Word) : Word := w.map Char.toLower

/-- An inflection rule (src/lib.rs, struct Rule). -/
structure Rule where
  gender : Gender
  test : List Word
  mods : List Modifier
  tags : List RuleTag
deriving DecidableEq, Repr

/-- `Rule::modifier`: `self.mods[case as usize]`.  The source array has
exactly five entries, so the default is never consulted for the real
table. -/
def Rule.modifier (r : Rule) (c : Case) : Modifier :=
  r.mods.getD c.toIdx none

/-- `Rule::has_tag`: `self.tags.contains(&tag)`. -/
def Rule.has_tag (r : Rule) (t : RuleTag) : Bool :=
  r.tags.contains t

/-- `Rule::fully_matches`: some test string equals the name. -/
def Rule.fully_matches (r : Rule) (name : Word) : Bool :=
  r.test.any (fun t => t == name)

/-- `Rule::suffix_matches`: the name ends with some test string. -/
def Rule.suffix_matches (r : Rule) (name : Word) : Bool :=
  r.test.any (fun t => t.isSuffixOf name)

/-- `Rule::gender_matches`: rule gender equals the requested gender or
is the Androgynous wildcard. -/
def Rule.gender_matches (r : Rule) (g : Gender) : Bool :=
  r.gender == g || r.gender == Gender.Androgynous

/-- A pair of rule sequences (src/lib.rs, struct RuleList). -/
structure RuleList where
  exceptions : List Rule
  suffixes : List Rule

/-- The three rule lists (src/lib.rs, struct Rules). -/
structure Rules where
  lastname : RuleList
  firstname : RuleList
  middlename : RuleList

/-- `find_exception` (src/lib.rs): first exception, in table order, that
fully matches the lowercased name, is gender compatible, and is not a
FirstWord-tagged rule applied to the last part. -/
def find_exception (exceptions : List Rule) (name : Word) (gender : Gender)
    (is_last : Bool) : Option Rule :=
  exceptions.find? fun e =>
    e.fully_matches name && e.gender_matches gender &&
      (!e.has_tag RuleTag.FirstWord || !is_last)

/-- Rust `Iterator::max_by_key`: the maximal element by the key; when
several elements share the maximal key, the LAST of them is returned. -/
def max_by_key {α : Type} (key : α → Nat) : List α → Option α
  | [] => none
  | x :: xs => some (xs.foldl (fun acc y => if key y < key acc then acc else y) x)

/-- The selection key used by `find_suffix`: the byte length of the
longest test string of the rule that the name ends with.  The source
computes this as `rule.test.iter().filter(...).max_by_key(len).unwrap().len()`;
the `unwrap` never fails there because the key is only evaluated on
rules that passed the `suffix_matches` filter, for which the filtered
list is non-empty (on an empty list this model returns 0). -/
def longest_match_byteLen (name : Word) (r : Rule) : Nat :=
  ((r.test.filter (fun t => t.isSuffixOf name)).map byteLen).foldl Nat.max 0

/-- `find_suffix` (src/lib.rs): among the gender-compatible suffix rules
matching the name, the one with the longest matching test string (by
byte length), later rules winning ties, per `max_by_key`. -/
def find_suffix (suffixes : List Rule) (name : Word) (gender : Gender) :
    Option Rule :=
  max_by_key (longest_match_byteLen name)
    (suffixes.filter fun s => s.suffix_matches name && s.gender_matches gender)

/-- The usize width of the reference 64-bit target. -/
def USIZE : Nat := 2 ^ 64

/-- Rust release-mode `usize` subtraction `a - b`: wraps modulo `2^64`
on underflow (with overflow checks enabled the source panics instead). -/
def usize_sub (a b : Nat) : Nat := (a + (USIZE - b % USIZE)) % USIZE

/-- `inflect` (src/lib.rs): apply the rule's modifier for the case to
the original-case name.  `name.chars().take(count - skip) ++ ending`
with `count - skip` being usize subtraction. -/
def inflect (name : Word) (r : Rule) (c : Case) : Word :=
  match r.modifier c with
  | some (skip, ending) => name.take (usize_sub name.length skip) ++ ending
  | none => name

/-- `inflect_name_part` (src/lib.rs): lowercase the part, look for an
exception and otherwise for a suffix rule, and inflect with the found
rule; `none` when no rule matches. -/
def inflect_name_part (gender : Gender) (name : Word) (c : Case)
    (rule_list : RuleList) (is_last : Bool) : Option Word :=
  let lowercase_name := toLowercase name
  ((find_exception rule_list.exceptions lowercase_name gender is_last).or
    (find_suffix rule_list.suffixes lowercase_name gender)).map
    (fun rule => inflect name rule c)

/-- Rust `str::split('-')` producing the list of hyphen-separated
components; the empty string yields one empty component. -/
def split_hyphen : Word → List Word
  | [] => [[]]
  | c :: cs =>
    if c = '-' then [] :: split_hyphen cs
    else
      match split_hyphen cs with
      | [] => [[c]]
      | p :: ps => (c :: p) :: ps

/-- Rust `[String]::join("-")`. -/
def join_hyphen : List Word → Word
  | [] => []
  | [p] => p
  | p :: ps => p ++ '-' :: join_hyphen ps

/-- `inflect_name` (src/lib.rs): split on hyphens, inflect each part
(the last part flagged), unmatched parts passing through unchanged, and
rejoin with hyphens. -/
def inflect_name (gender : Gender) (name : Word) (c : Case)
    (rule_list : RuleList) : Word :=
  let name_parts := split_hyphen name
  join_hyphen (name_parts.enum.map fun ip =>
    (inflect_name_part gender ip.2 c rule_list
      (ip.1 == name_parts.length - 1)).getD ip.2)

/-- `firstname` (src/lib.rs), with the compiled table as a parameter. -/
def firstname (rules : Rules) (gender : Gender) (name : Word) (c : Case) : Word :=
  inflect_name gender name c rules.firstname

/-- `lastname` (src/lib.rs), with the compiled table as a parameter. -/
def lastname (rules : Rules) (gender : Gender) (name : Word) (c : Case) : Word :=
  inflect_name gender name c rules.lastname

/-- `middlename` (src/lib.rs), with the compiled table as a parameter. -/
def middlename (rules : Rules) (gender : Gender) (name : Word) (c : Case) : Word :=
  inflect_name gender name c rules.middlename

/-- Three string sets (src/gender.rs, struct GenderMapping). -/
structure GenderMapping where
  androgynous : List Word
  male : List Word
  female : List Word
deriving DecidableEq

/-- Exception and suffix mappings for one name-part category
(src/gender.rs, struct GenderHeuristic). -/
structure GenderHeuristic where
  exceptions : Option GenderMapping
  suffixes : GenderMapping
deriving DecidableEq

/-- The exact-match stage of `GenderHeuristic::detect_gender`: the
closure passed to `and_then` in the source, with `find_exception`
being set membership of the (already lowercased) name. -/
def exception_stage (m : GenderMapping) (name : Word) : Option Gender :=
  if m.androgynous.contains name then none
  else if m.female.contains name then some Gender.Female
  else if m.male.contains name then some Gender.Male
  else none

/-- The suffix stage of `GenderHeuristic::detect_gender`: the closure
passed to `or_else` in the source, with `find_suffix` being
`suffixes.iter().any(|suffix| name.ends_with(suffix))`. -/
def suffix_stage (m : GenderMapping) (name : Word) : Option Gender :=
  if m.androgynous.any (fun s => s.isSuffixOf name) then none
  else if m.female.any (fun s => s.isSuffixOf name) then some Gender.Female
  else if m.male.any (fun s => s.isSuffixOf name) then some Gender.Male
  else none

/-- `GenderHeuristic::detect_gender` (src/gender.rs):
`self.exceptions.and_then(exception stage).or_else(suffix stage)`. -/
def GenderHeuristic.detect_gender (h : GenderHeuristic) (name : Word) :
    Option Gender :=
  (h.exceptions.bind (fun m => exception_stage m name)).orElse
    (fun _ => suffix_stage h.suffixes name)

/-- The three per-category heuristics (src/gender.rs,
struct GenderHeuristics). -/
structure GenderHeuristics where
  lastname : GenderHeuristic
  firstname : GenderHeuristic
  middlename : GenderHeuristic

/-- `detect_gender` (src/gender.rs), with the compiled table as a
parameter: cascade middlename, then firstname, then lastname, lowering
each provided part, defaulting to Androgynous. -/
def detect_gender (G : GenderHeuristics) (lastname firstname middlename : Option Word) :
    Gender :=
  (((middlename.bind fun m => G.middlename.detect_gender (toLowercase m)).orElse
      (fun _ => firstname.bind fun f => G.firstname.detect_gender (toLowercase f))).orElse
      (fun _ => lastname.bind fun l => G.lastname.detect_gender (toLowercase l))).getD
    Gender.Androgynous

/-! ### Helper lemmas about splitting and joining on hyphens -/

theorem split_hyphen_ne_nil (l : Word) : split_hyphen l ≠ [] := by
  induction l with
  | nil => simp [split_hyphen]
  | cons c cs ih =>
    simp only [split_hyphen]
    split
    · simp
    · cases h : split_hyphen cs with
      | nil => simp
      | cons p ps => simp

theorem length_split_hyphen (l : Word) :
    (split_hyphen l).length = l.count '-' + 1 := by
  induction l with
  | nil => simp [split_hyphen]
  | cons c cs ih =>
    simp only [split_hyphen]
    by_cases hc : c = '-'
    · subst hc
      simp [List.count_cons, ih]
    · rw [if_neg hc]
      cases h : split_hyphen cs with
      | nil => exact absurd h (split_hyphen_ne_nil cs)
      | cons p ps =>
        rw [h] at ih
        simp only [List.length_cons] at ih ⊢
        have : (c == '-') = false := by simp [hc]
        simp [List.count_cons, this, ih]

theorem join_split_hyphen (l : Word) : join_hyphen (split_hyphen l) = l := by
  induction l with
  | nil => simp [split_hyphen, join_hyphen]
  | cons c cs ih =>
    simp only [split_hyphen]
    by_cases hc : c = '-'
    · subst hc
      rw [if_pos rfl]
      cases h : split_hyphen cs with
      | nil => exact absurd h (split_hyphen_ne_nil cs)
      | cons p ps =>
        rw [h] at ih
        simp [join_hyphen, ih]
    · rw [if_neg hc]
      cases h : split_hyphen cs with
      | nil => exact absurd h (split_hyphen_ne_nil cs)
      | cons p ps =>
        rw [h] at ih
        cases ps with
        | nil => simpa [join_hyphen] using congrArg (c :: ·) ih
        | cons q qs =>
          simp only [join_hyphen] at ih ⊢
          simpa using congrArg (c :: ·) ih

theorem count_split_hyphen (l : Word) :
    ∀ p ∈ split_hyphen l, p.count '-' = 0 := by
  induction l with
  | nil => simp [split_hyphen]
  | cons c cs ih =>
    simp only [split_hyphen]
    by_cases hc : c = '-'
    · subst hc
      rw [if_pos rfl]
      intro p hp
      rcases List.mem_cons.1 hp with rfl | hp
      · simp
      · exact ih p hp
    · rw [if_neg hc]
      cases h : split_hyphen cs with
      | nil => exact absurd h (split_hyphen_ne_nil cs)
      | cons q qs =>
        rw [h] at ih
        intro p hp
        rcases List.mem_cons.1 hp with rfl | hp
        · have hq : q.count '-' = 0 := ih q (List.mem_cons_self q qs)
          have : (c == '-') = false := by simp [hc]
          simp [List.count_cons, this, hq]
        · exact ih p (List.mem_cons_of_mem q hp)

theorem count_join_hyphen :
    ∀ (parts : List Word), parts ≠ [] → (∀ p ∈ parts, p.count '-' = 0) →
      (join_hyphen parts).count '-' = parts.length - 1
  | [], h, _ => absurd rfl h
  | [p], _, hp => by simpa [join_hyphen] using hp p (List.mem_singleton_self p)
  | p :: q :: ps, _, hp => by
    have hrec := count_join_hyphen (q :: ps) (by simp)
      (fun x hx => hp x (List.mem_cons_of_mem p hx))
    have hp0 : p.count '-' = 0 := hp p (List.mem_cons_self p (q :: ps))
    simp only [join_hyphen, List.count_append, List.count_cons, hp0,
      beq_self_eq_true, if_true, List.length_cons] at hrec ⊢
    omega

/-! ### Helper lemmas about foldl with Nat.max -/

theorem foldl_max_le_init (a : Nat) (l : List Nat) : a ≤ l.foldl Nat.max a := by
  induction l generalizing a with
  | nil => exact Nat.le_refl a
  | cons b l ih =>
    exact Nat.le_trans (Nat.le_max_left a b) (ih (Nat.max a b))

theorem le_foldl_max_of_mem {x : Nat} :
    ∀ (l : List Nat) (a : Nat), x ∈ l → x ≤ l.foldl Nat.max a
  | [], _, hx => absurd hx (List.not_mem_nil x)
  | b :: l, a, hx => by
    rcases List.mem_cons.1 hx with rfl | hx
    · exact Nat.le_trans (Nat.le_max_right a x) (foldl_max_le_init _ l)
    · exact le_foldl_max_of_mem l (Nat.max a b) hx

theorem foldl_max_mem : ∀ (l : List Nat) (a : Nat),
    l.foldl Nat.max a = a ∨ l.foldl Nat.max a ∈ l
  | [], _ => Or.inl rfl
  | b :: l, a => by
    rcases foldl_max_mem l (Nat.max a b) with h | h
    · have hab : Nat.max a b = a ∨ Nat.max a b = b := by
        rcases Nat.le_total a b with h' | h'
        · exact Or.inr (Nat.max_eq_right h')
        · exact Or.inl (Nat.max_eq_left h')
      rcases hab with hab | hab
      · exact Or.inl (by rw [List.foldl_cons, h, hab])
      · exact Or.inr (by rw [List.foldl_cons, h, hab]; exact List.mem_cons_self b l)
    · exact Or.inr (List.mem_cons_of_mem b h)

theorem foldl_max_map_eq {α : Type} (f : α → Nat) (ts : List α) (t0 : α)
    (h0 : t0 ∈ ts) (hle : ∀ t ∈ ts, f t ≤ f t0) :
    (ts.map f).foldl Nat.max 0 = f t0 := by
  have h1 : f t0 ≤ (ts.map f).foldl Nat.max 0 :=
    le_foldl_max_of_mem (ts.map f) 0 (List.mem_map_of_mem f h0)
  rcases foldl_max_mem (ts.map f) 0 with h | h
  · omega
  · rcases List.mem_map.1 h with ⟨t, ht, heq⟩
    have := hle t ht
    omega

/-! ### Helper lemmas about suffixes and byte lengths -/

theorem byteLen_append (u v : Word) : byteLen (u ++ v) = byteLen u + byteLen v := by
  simp [byteLen]

theorem byteLen_le_of_suffix {s t : Word} (h : s <:+ t) : byteLen s ≤ byteLen t := by
  rcases h with ⟨u, rfl⟩
  rw [byteLen_append]
  omega

theorem byteLen_lt_of_suffix_of_length_lt {s t : Word} (h : s <:+ t)
    (hlen : s.length < t.length) : byteLen s < byteLen t := by
  rcases h with ⟨u, rfl⟩
  rw [byteLen_append]
  cases u with
  | nil => simp at hlen
  | cons c u' =>
    have hc : 0 < c.utf8Size := c.utf8Size_pos
    have : byteLen (c :: u') = c.utf8Size + byteLen u' := by simp [byteLen]
    omega

/-- Among a non-empty family of suffixes of a common word there is a
greatest one for the suffix order. -/
theorem exists_max_suffix {n : Word} :
    ∀ (ts : List Word), ts ≠ [] → (∀ t ∈ ts, t <:+ n) →
      ∃ t ∈ ts, ∀ t' ∈ ts, t' <:+ t
  | [], h, _ => absurd rfl h
  | [t], _, _ => ⟨t, List.mem_singleton_self t, by
      intro t' ht'
      rw [List.mem_singleton] at ht'
      subst ht'
      exact List.suffix_rfl⟩
  | t :: t' :: ts, _, hsuf => by
    obtain ⟨m, hm, hmax⟩ := exists_max_suffix (t' :: ts) (by simp)
      (fun x hx => hsuf x (List.mem_cons_of_mem t hx))
    have hmn : m <:+ n := hsuf m (List.mem_cons_of_mem t hm)
    have htn : t <:+ n := hsuf t (List.mem_cons_self t (t' :: ts))
    rcases List.suffix_or_suffix_of_suffix htn hmn with h | h
    · refine ⟨m, List.mem_cons_of_mem t hm, ?_⟩
      intro x hx
      rcases List.mem_cons.1 hx with rfl | hx
      · exact h
      · exact hmax x hx
    · refine ⟨t, List.mem_cons_self t (t' :: ts), ?_⟩
      intro x hx
      rcases List.mem_cons.1 hx with rfl | hx
      · exact List.suffix_rfl
      · exact (hmax x hx).trans h

/-- The character-length analogue of `longest_match_byteLen`: the
character count of the longest test string of the rule that the name
ends with.  Used to state properties given in terms of character
lengths. -/
def longest_match_charLen (name : Word) (r : Rule) : Nat :=
  ((r.test.filter (fun t => t.isSuffixOf name)).map List.length).foldl Nat.max 0

/-- The longest matching test string of a rule that matches the name at
all: it attains both the byte-length key of the source and the
character-length measure, and every matching test string is a suffix of
it. -/
theorem longest_match_spec (name : Word) (r : Rule)
    (h : r.suffix_matches name = true) :
    ∃ t ∈ r.test, t <:+ name ∧ longest_match_byteLen name r = byteLen t ∧
      longest_match_charLen name r = t.length ∧
      ∀ t' ∈ r.test, t'.isSuffixOf name = true → t' <:+ t := by
  rcases List.any_eq_true.1 h with ⟨t0, ht0, hsuf0⟩
  have hmem0 : t0 ∈ r.test.filter (fun t => t.isSuffixOf name) :=
    List.mem_filter.2 ⟨ht0, hsuf0⟩
  have hall : ∀ t ∈ r.test.filter (fun t => t.isSuffixOf name), t <:+ name := by
    intro t ht
    exact List.isSuffixOf_iff_suffix.1 (List.mem_filter.1 ht).2
  obtain ⟨t, htmem, hmax⟩ := exists_max_suffix _ (List.ne_nil_of_mem hmem0) hall
  refine ⟨t, (List.mem_filter.1 htmem).1, hall t htmem, ?_, ?_, ?_⟩
  · exact foldl_max_map_eq byteLen _ t htmem
      (fun t' ht' => byteLen_le_of_suffix (hmax t' ht'))
  · exact foldl_max_map_eq List.length _ t htmem
      (fun t' ht' => (hmax t' ht').length_le)
  · intro t' ht' hsuf'
    exact hmax t' (List.mem_filter.2 ⟨ht', hsuf'⟩)

/-- Strictly longer (by character count) longest matching test strings
give strictly larger byte-length keys: all matching test strings are
suffixes of the same name, on which byte length and character length
are comparable in the same order. -/
theorem byteKey_lt_of_charKey_lt (name : Word) (r1 r2 : Rule)
    (h1 : r1.suffix_matches name = true) (h2 : r2.suffix_matches name = true)
    (hlt : longest_match_charLen name r2 < longest_match_charLen name r1) :
    longest_match_byteLen name r2 < longest_match_byteLen name r1 := by
  obtain ⟨t1, _, hsuf1, hb1, hc1, _⟩ := longest_match_spec name r1 h1
  obtain ⟨t2, _, hsuf2, hb2, hc2, _⟩ := longest_match_spec name r2 h2
  rw [hb1, hb2]
  rw [hc1, hc2] at hlt
  rcases List.suffix_or_suffix_of_suffix hsuf1 hsuf2 with h | h
  · exact absurd h.length_le (by omega)
  · exact byteLen_lt_of_suffix_of_length_lt h hlt

/-! ### Helper lemmas about `max_by_key` -/

theorem foldl_choose_mem {α : Type} (key : α → Nat) :
    ∀ (rs : List α) (x : α),
      rs.foldl (fun acc y => if key y < key acc then acc else y) x ∈ x :: rs
  | [], _ => List.mem_singleton_self _
  | y :: rs, x => by
    have ih := foldl_choose_mem key rs (if key y < key x then x else y)
    rw [List.foldl_cons]
    rcases List.mem_cons.1 ih with h | h
    · rw [h]
      split
      · exact List.mem_cons_self _ _
      · exact List.mem_cons_of_mem _ (List.mem_cons_self _ _)
    · exact List.mem_cons_of_mem _ (List.mem_cons_of_mem _ h)

theorem max_by_key_mem {α : Type} {key : α → Nat} {l : List α} {r : α}
    (h : max_by_key key l = some r) : r ∈ l := by
  cases l with
  | nil => simp [max_by_key] at h
  | cons x xs =>
    simp only [max_by_key, Option.some.injEq] at h
    exact h ▸ foldl_choose_mem key xs x

theorem max_by_key_append_last {α : Type} (key : α → Nat) (l : List α) (r : α)
    (hle : ∀ x ∈ l, key x ≤ key r) : max_by_key key (l ++ [r]) = some r := by
  cases l with
  | nil => simp [max_by_key]
  | cons x l' =>
    simp only [List.cons_append, max_by_key, Option.some.injEq,
      List.foldl_append, List.foldl_cons, List.foldl_nil]
    have hmem := foldl_choose_mem key l' x
    have hkey : key (l'.foldl (fun acc y => if key y < key acc then acc else y) x) ≤ key r :=
      hle _ hmem
    rw [if_neg (by omega)]

/-- A rule returned by `find_suffix` is a member of the suffix list. -/
theorem find_suffix_mem {suffixes : List Rule} {name : Word} {g : Gender} {r : Rule}
    (h : find_suffix suffixes name g = some r) : r ∈ suffixes :=
  List.mem_of_mem_filter (max_by_key_mem h)

/-! ### Helper lemmas about `usize_sub` and `inflect` -/

theorem usize_sub_eq_sub {a b : Nat} (hba : b ≤ a) (ha : a < USIZE) :
    usize_sub a b = a - b := by
  have hb : b % USIZE = b := Nat.mod_eq_of_lt (by omega)
  rw [usize_sub, hb]
  have h1 : a + (USIZE - b) = (a - b) + USIZE := by
    have : b ≤ USIZE := by omega
    omega
  rw [h1, Nat.add_mod_right]
  exact Nat.mod_eq_of_lt (by omega)

theorem le_usize_sub_of_lt {a b : Nat} (hab : a < b) (hb : b < USIZE) :
    a ≤ usize_sub a b := by
  have hbm : b % USIZE = b := Nat.mod_eq_of_lt hb
  rw [usize_sub, hbm]
  have h1 : a + (USIZE - b) < USIZE := by omega
  rw [Nat.mod_eq_of_lt h1]
  omega

/-! ### Helper lemmas about `enumFrom` mapping and membership -/

theorem enumFrom_map_eq_self {α : Type} (f : Nat × α → α) :
    ∀ (l : List α) (n : Nat), (∀ ip ∈ l.enumFrom n, f ip = ip.2) →
      (l.enumFrom n).map f = l
  | [], _, _ => rfl
  | x :: xs, n, h => by
    rw [List.enumFrom_cons, List.map_cons,
      h (n, x) (List.mem_cons_self _ _),
      enumFrom_map_eq_self f xs (n + 1)
        (fun ip hip => h ip (List.mem_cons_of_mem _ hip))]

theorem snd_mem_of_mem_enumFrom {α : Type} {l : List α} {n : Nat}
    {ip : Nat × α} (h : ip ∈ l.enumFrom n) : ip.2 ∈ l := by
  have := List.mem_map_of_mem Prod.snd h
  rwa [List.enumFrom_map_snd] at this

/-! ### Membership facts for matched rules, and table-shape predicates -/

theorem find_exception_mem {exceptions : List Rule} {name : Word} {g : Gender}
    {il : Bool} {r : Rule} (h : find_exception exceptions name g il = some r) :
    r ∈ exceptions :=
  List.mem_of_find?_eq_some h

/-- A modifier whose appended ending contains no hyphen (identity
modifiers qualify). -/
def mod_hyphen_free : Modifier → Bool
  | some (_, ending) => ending.count '-' == 0
  | none => true

/-- Modelled from the spec: the compiled rule table (generated from
rules.yml, data absent from the engine sources) appends only Russian
declension endings, so no modifier of any of its rules appends a
hyphen; the spec's hyphen round-trip property presupposes this. -/
def hyphen_free_mods (rl : RuleList) : Bool :=
  (rl.exceptions ++ rl.suffixes).all fun r => r.mods.all mod_hyphen_free

/-- Every test pattern of every rule of the table is non-empty. -/
def nonempty_tests (rl : RuleList) : Bool :=
  (rl.exceptions ++ rl.suffixes).all fun r => r.test.all fun t => !t.isEmpty

theorem modifier_hyphen_free {rl : RuleList} (h : hyphen_free_mods rl = true)
    {r : Rule} (hr : r ∈ rl.exceptions ++ rl.suffixes) (c : Case) :
    ∀ skip ending, r.modifier c = some (skip, ending) → ending.count '-' = 0 := by
  intro skip ending hmod
  have hall : r.mods.all mod_hyphen_free = true :=
    List.all_eq_true.1 h r hr
  rw [Rule.modifier] at hmod
  cases hget : r.mods[c.toIdx]? with
  | none => rw [List.getD_eq_getElem?_getD, hget] at hmod; simp at hmod
  | some m =>
    rw [List.getD_eq_getElem?_getD, hget] at hmod
    simp only [Option.getD_some] at hmod
    subst hmod
    have hm : mod_hyphen_free (some (skip, ending)) = true :=
      List.all_eq_true.1 hall _ (List.getElem?_mem hget)
    simpa [mod_hyphen_free] using hm

/-- An inflected fragment has no hyphen when the fragment and the
appended ending have none: the kept characters are a prefix of the
fragment. -/
theorem count_inflect {p : Word} {r : Rule} {c : Case} (hp : p.count '-' = 0)
    (hmods : ∀ skip ending, r.modifier c = some (skip, ending) → ending.count '-' = 0) :
    (inflect p r c).count '-' = 0 := by
  rw [inflect]
  cases hmod : r.modifier c with
  | none => exact hp
  | some se =>
    obtain ⟨skip, ending⟩ := se
    have he : ending.count '-' = 0 := hmods skip ending hmod
    have ht : (p.take (usize_sub p.length skip)).count '-' ≤ p.count '-' :=
      (List.take_sublist _ _).count_le '-'
    rw [List.count_append]
    omega

/-! ### Claim C1 -/

/-- Claim C1: for every gender, case and rule list, a name part whose
lowercased form matches no exception rule and no suffix rule yields no
rule (`inflect_name_part` is `none`), and a name all of whose
hyphen-split parts are unmatched is returned by `inflect_name`
completely unchanged — silent pass-through, no error value.  The public
operations firstname, lastname and middlename are `inflect_name` at the
three lists of the table, so this covers all of them. -/
theorem claim_c1 (rl : RuleList) (g : Gender) (c : Case) :
    (∀ (p : Word) (il : Bool),
       find_exception rl.exceptions (toLowercase p) g il = none →
       find_suffix rl.suffixes (toLowercase p) g = none →
       inflect_name_part g p c rl il = none)
    ∧ ∀ name : Word,
       (∀ ip ∈ (split_hyphen name).enum,
          find_exception rl.exceptions (toLowercase ip.2) g
            (ip.1 == (split_hyphen name).length - 1) = none ∧
          find_suffix rl.suffixes (toLowercase ip.2) g = none) →
       inflect_name g name c rl = name := by
  have hpart : ∀ (p : Word) (il : Bool),
      find_exception rl.exceptions (toLowercase p) g il = none →
      find_suffix rl.suffixes (toLowercase p) g = none →
      inflect_name_part g p c rl il = none := by
    intro p il h1 h2
    simp [inflect_name_part, h1, h2, Option.or]
  refine ⟨hpart, ?_⟩
  intro name h
  show join_hyphen ((split_hyphen name).enum.map fun ip =>
    (inflect_name_part g ip.2 c rl
      (ip.1 == (split_hyphen name).length - 1)).getD ip.2) = name
  have he : (split_hyphen name).enum = (split_hyphen name).enumFrom 0 := rfl
  rw [he, enumFrom_map_eq_self _ (split_hyphen name) 0 ?_, join_split_hyphen]
  intro ip hip
  obtain ⟨h1, h2⟩ := h ip hip
  rw [hpart ip.2 _ h1 h2]
  rfl

/-- Claim C1 witness: a two-part name matching nothing in a one-rule
table passes through unchanged. -/
theorem claim_c1_witness :
    inflect_name Gender.Male ['a', 'b', '-', 'c'] Case.Genitive
      ⟨[], [⟨Gender.Male, [['o', 'v']], [some (0, ['a']), none, none, none, none], []⟩]⟩ =
      ['a', 'b', '-', 'c'] :=
  (claim_c1 ⟨[], [⟨Gender.Male, [['o', 'v']],
      [some (0, ['a']), none, none, none, none], []⟩]⟩ Gender.Male Case.Genitive).2
    ['a', 'b', '-', 'c'] (by decide)

/-! ### Claim C2 -/

/-- Claim C2: in the suffix pass, for two gender-compatible rules both
matching the fragment's tail, if the longest matching test string of one
has strictly greater character length than that of the other, that rule
is selected whichever order the two rules occupy in the suffix list. -/
theorem claim_c2 (name : Word) (g : Gender) (r1 r2 : Rule)
    (hs1 : r1.suffix_matches name = true) (hg1 : r1.gender_matches g = true)
    (hs2 : r2.suffix_matches name = true) (hg2 : r2.gender_matches g = true)
    (hlt : longest_match_charLen name r2 < longest_match_charLen name r1) :
    find_suffix [r1, r2] name g = some r1 ∧ find_suffix [r2, r1] name g = some r1 := by
  have hkey := byteKey_lt_of_charKey_lt name r1 r2 hs1 hs2 hlt
  constructor
  · rw [find_suffix, show [r1, r2].filter
        (fun s => s.suffix_matches name && s.gender_matches g) = [r1, r2] by
      simp [hs1, hg1, hs2, hg2]]
    simp only [max_by_key, List.foldl_cons, List.foldl_nil]
    rw [if_pos hkey]
  · rw [find_suffix, show [r2, r1].filter
        (fun s => s.suffix_matches name && s.gender_matches g) = [r2, r1] by
      simp [hs1, hg1, hs2, hg2]]
    simp only [max_by_key, List.foldl_cons, List.foldl_nil]
    rw [if_neg (by omega)]

/-- Claim C2 witness: a two-character matching suffix beats a
one-character one in both table orders. -/
theorem claim_c2_witness :
    find_suffix
        [⟨Gender.Androgynous, [['a', 'b']], [none, none, none, none, none], []⟩,
         ⟨Gender.Androgynous, [['b']], [some (0, ['z']), none, none, none, none], []⟩]
        ['a', 'b'] Gender.Male =
      some ⟨Gender.Androgynous, [['a', 'b']], [none, none, none, none, none], []⟩ ∧
    find_suffix
        [⟨Gender.Androgynous, [['b']], [some (0, ['z']), none, none, none, none], []⟩,
         ⟨Gender.Androgynous, [['a', 'b']], [none, none, none, none, none], []⟩]
        ['a', 'b'] Gender.Male =
      some ⟨Gender.Androgynous, [['a', 'b']], [none, none, none, none, none], []⟩ :=
  claim_c2 ['a', 'b'] Gender.Male
    ⟨Gender.Androgynous, [['a', 'b']], [none, none, none, none, none], []⟩
    ⟨Gender.Androgynous, [['b']], [some (0, ['z']), none, none, none, none], []⟩
    (by decide) (by decide) (by decide) (by decide) (by decide)

/-! ### Claim C3 -/

/-- A rule with the one-character test string "a" and identity
modifiers. -/
def c3_r1 : Rule := ⟨Gender.Androgynous, [['a']], [none, none, none, none, none], []⟩

/-- A distinct rule with the same test string "a". -/
def c3_r2 : Rule :=
  ⟨Gender.Androgynous, [['a']], [some (0, ['x']), none, none, none, none], []⟩

/-- Claim C3 counterexample: two distinct suffix rules tie on the
maximal matching length, and the matcher returns the SECOND one in table
order, not the first as the claim states. -/
theorem claim_c3_counterexample :
    find_suffix [c3_r1, c3_r2] ['a'] Gender.Male = some c3_r2 ∧
    c3_r2 ≠ c3_r1 ∧
    longest_match_byteLen ['a'] c3_r1 = longest_match_byteLen ['a'] c3_r2 := by
  decide

/-- Claim C3 amended: when matching suffix rules tie on the maximal
length of their longest matching test string, the candidate encountered
LAST during the scan of the suffix list is selected: a final rule whose
key is at least the key of every earlier matching candidate wins. -/
theorem claim_c3_amended (l : List Rule) (r : Rule) (name : Word) (g : Gender)
    (hs : r.suffix_matches name = true) (hg : r.gender_matches g = true)
    (hle : ∀ r' ∈ l, r'.suffix_matches name = true → r'.gender_matches g = true →
       longest_match_byteLen name r' ≤ longest_match_byteLen name r) :
    find_suffix (l ++ [r]) name g = some r := by
  rw [find_suffix, List.filter_append,
    show [r].filter (fun s => s.suffix_matches name && s.gender_matches g) = [r] by
      simp [hs, hg]]
  refine max_by_key_append_last _ _ _ ?_
  intro x hx
  obtain ⟨hxl, hpred⟩ := List.mem_filter.1 hx
  obtain ⟨hxs, hxg⟩ := (Bool.and_eq_true _ _).mp hpred
  exact hle x hxl hxs hxg

/-- Claim C3 amended witness: with two tied rules the later one is
selected. -/
theorem claim_c3_amended_witness :
    find_suffix ([c3_r1] ++ [c3_r2]) ['a'] Gender.Male = some c3_r2 :=
  claim_c3_amended [c3_r1] c3_r2 ['a'] Gender.Male (by decide) (by decide) (by decide)

/-! ### Claim C4 -/

/-- The exception pass as the spec words it: scan the exception list in
table order and return the first rule such that (a) the lowercased
fragment is one of the rule's test strings, (b) the rule's gender is the
requested one or Androgynous, and (c) not (the rule carries the
FirstWord tag and the fragment is the last hyphen-split component). -/
def find_exception_spec (exceptions : List Rule) (name : Word) (g : Gender)
    (is_last : Bool) : Option Rule :=
  exceptions.find? fun e =>
    decide (name ∈ e.test) && (e.gender == g || e.gender == Gender.Androgynous) &&
      !(decide (RuleTag.FirstWord ∈ e.tags) && is_last)

/-- Replace the tag list of a rule, leaving every other field alone.
Used to state that the suffix pass never consults the tags. -/
def set_tags (ts : List RuleTag) (r : Rule) : Rule := { r with tags := ts }

theorem fully_matches_eq_mem (r : Rule) (name : Word) :
    r.fully_matches name = decide (name ∈ r.test) := by
  rw [Bool.eq_iff_iff, Rule.fully_matches, List.any_eq_true, decide_eq_true_iff]
  constructor
  · rintro ⟨t, ht, hbeq⟩
    exact (eq_of_beq hbeq) ▸ ht
  · intro h
    exact ⟨name, h, by simp⟩

theorem has_tag_eq_mem (r : Rule) (t : RuleTag) :
    r.has_tag t = decide (t ∈ r.tags) := by
  rw [Bool.eq_iff_iff, Rule.has_tag, decide_eq_true_iff]
  exact List.elem_iff

/-- `max_by_key` commutes with mapping a key-preserving function over
the candidates. -/
theorem max_by_key_map {α : Type} (key : α → Nat) (f : α → α)
    (hkey : ∀ x, key (f x) = key x) :
    ∀ l : List α, max_by_key key (l.map f) = (max_by_key key l).map f
  | [] => rfl
  | x :: xs => by
    simp only [List.map_cons, max_by_key, Option.map_some']
    congr 1
    refine List.foldl_map' f _ _ x xs ?_
    intro a b
    rw [hkey a, hkey b]
    exact (apply_ite f _ _ _).symm

/-- Claim C4: the exception pass of the matcher coincides with the
spec's reference definition (first rule in table order with exact test
match, compatible gender, and the FirstWord tag not excluding it on the
last part); and the suffix pass never consults tags: replacing every
rule's tag list commutes with `find_suffix`. -/
theorem claim_c4 :
    (∀ (exceptions : List Rule) (name : Word) (g : Gender) (il : Bool),
       find_exception exceptions name g il = find_exception_spec exceptions name g il) ∧
    (∀ (l : List Rule) (ts : List RuleTag) (name : Word) (g : Gender),
       find_suffix (l.map (set_tags ts)) name g =
         (find_suffix l name g).map (set_tags ts)) := by
  constructor
  · intro exceptions name g il
    rw [find_exception, find_exception_spec]
    congr 1
    funext e
    rw [fully_matches_eq_mem, has_tag_eq_mem, Rule.gender_matches, Bool.not_and]
  · intro l ts name g
    rw [find_suffix, find_suffix, List.filter_map,
      show ((fun s => s.suffix_matches name && s.gender_matches g) ∘ set_tags ts) =
        (fun s => s.suffix_matches name && s.gender_matches g) from rfl]
    exact max_by_key_map (longest_match_byteLen name) (set_tags ts) (fun _ => rfl) _

/-! ### Claim C5 -/

/-- A name-part slot yields no signal: it is absent, or the heuristic of
its category returns no gender for its lowercased value. -/
def no_signal (h : GenderHeuristic) (part : Option Word) : Prop :=
  ∀ w, part = some w → h.detect_gender (toLowercase w) = none

theorem bind_detect_none {h : GenderHeuristic} {part : Option Word}
    (hns : no_signal h part) :
    (part.bind fun w => h.detect_gender (toLowercase w)) = none := by
  cases part with
  | none => rfl
  | some w => simpa using hns w rfl

/-- Claim C5: `detect_gender` evaluates middlename, then firstname, then
lastname; the first category yielding a definite gender determines the
result regardless of the other arguments; absent and signal-less parts
are skipped; and with no signal at all the result is Androgynous. -/
theorem claim_c5 (G : GenderHeuristics) (ln fn mn : Option Word) :
    (∀ m gg, mn = some m → G.middlename.detect_gender (toLowercase m) = some gg →
       detect_gender G ln fn mn = gg) ∧
    (no_signal G.middlename mn →
       ∀ f gg, fn = some f → G.firstname.detect_gender (toLowercase f) = some gg →
         detect_gender G ln fn mn = gg) ∧
    (no_signal G.middlename mn → no_signal G.firstname fn →
       ∀ l gg, ln = some l → G.lastname.detect_gender (toLowercase l) = some gg →
         detect_gender G ln fn mn = gg) ∧
    (no_signal G.middlename mn → no_signal G.firstname fn → no_signal G.lastname ln →
       detect_gender G ln fn mn = Gender.Androgynous) := by
  refine ⟨?_, ?_, ?_, ?_⟩
  · intro m gg hmn hsig
    subst hmn
    rw [detect_gender]
    simp [hsig, Option.orElse]
  · intro hm f gg hfn hsig
    subst hfn
    rw [detect_gender, bind_detect_none hm]
    simp [hsig, Option.orElse]
  · intro hm hf l gg hln hsig
    subst hln
    rw [detect_gender, bind_detect_none hm, bind_detect_none hf]
    simp [hsig, Option.orElse]
  · intro hm hf hl
    rw [detect_gender, bind_detect_none hm, bind_detect_none hf, bind_detect_none hl]
    rfl

/-- A table whose middlename category detects Male from the suffix
"ch". -/
def c5_G : GenderHeuristics :=
  ⟨⟨none, ⟨[], [], []⟩⟩, ⟨none, ⟨[], [], []⟩⟩, ⟨none, ⟨[], [['c', 'h']], []⟩⟩⟩

/-- Claim C5 witness: a middlename signal yields its gender, and with
every part absent the default Androgynous is returned. -/
theorem claim_c5_witness :
    detect_gender c5_G none none (some ['x', 'c', 'h']) = Gender.Male ∧
    detect_gender c5_G none none none = Gender.Androgynous :=
  ⟨(claim_c5 c5_G none none (some ['x', 'c', 'h'])).1 ['x', 'c', 'h'] Gender.Male rfl
      (by decide),
   (claim_c5 c5_G none none none).2.2.2 (fun _ h => nomatch h) (fun _ h => nomatch h)
      (fun _ h => nomatch h)⟩

/-! ### Claim C6 -/

/-- A heuristic whose exception mapping lists "a" as androgynous while
its suffix mapping lists "a" as a female ending. -/
def c6_heuristic : GenderHeuristic := ⟨some ⟨[['a']], [], []⟩, ⟨[], [], [['a']]⟩⟩

/-- Claim C6 counterexample: the value "a" is in the androgynous set of
the exceptions mapping, yet the part does NOT yield "no signal": the
suffix sets of the same category are consulted and produce Female. -/
theorem claim_c6_counterexample :
    c6_heuristic.exceptions = some ⟨[['a']], [], []⟩ ∧
    (GenderMapping.mk [['a']] [] []).androgynous.contains ['a'] = true ∧
    c6_heuristic.detect_gender ['a'] = some Gender.Female := by
  decide

/-- Claim C6 amended: a part whose lowercased value is in the
androgynous set of its category's exceptions mapping gets no signal from
the exception stage (in particular the female and male exception sets
cannot fire), but the suffix sets of the same category ARE still
consulted: the result is exactly the suffix stage's answer. -/
theorem claim_c6_amended (em sm : GenderMapping) (name : Word)
    (h : em.androgynous.contains name = true) :
    GenderHeuristic.detect_gender ⟨some em, sm⟩ name = suffix_stage sm name := by
  rw [GenderHeuristic.detect_gender]
  show (exception_stage em name).orElse _ = _
  rw [exception_stage, if_pos h]
  rfl

/-- Claim C6 amended witness: at the counterexample table the suffix
stage's Female answer is returned. -/
theorem claim_c6_amended_witness :
    GenderHeuristic.detect_gender ⟨some ⟨[['a']], [], []⟩, ⟨[], [], [['a']]⟩⟩ ['a'] =
      suffix_stage ⟨[], [], [['a']]⟩ ['a'] :=
  claim_c6_amended ⟨[['a']], [], []⟩ ⟨[], [], [['a']]⟩ ['a'] (by decide)

/-! ### Claim C7 -/

/-- A rule whose Genitive modifier trims 2 characters, more than the
one-character fragment "a" holds. -/
def c7_rule : Rule :=
  ⟨Gender.Male, [['a']], [some (2, ['x']), none, none, none, none], []⟩

/-- Claim C7 counterexample: with trimCount 2 on the one-character
fragment "a" (trimCount exceeding the codepoint count), the inflector
does NOT clamp: the usize subtraction wraps, every character of the
fragment is kept, and "ax" is returned instead of the clamped "x". -/
theorem claim_c7_counterexample :
    c7_rule.modifier Case.Genitive = some (2, ['x']) ∧
    (['a'] : Word).length < 2 ∧
    inflect ['a'] c7_rule Case.Genitive = ['a', 'x'] ∧
    inflect ['a'] c7_rule Case.Genitive ≠ ['x'] := by
  decide

/-- Claim C7 amended: the inflector is a total function; an identity
modifier returns the fragment unchanged; a `(trimCount, ending)`
modifier with trimCount at most the codepoint count removes the last
trimCount codepoints and appends the ending; but when trimCount exceeds
the codepoint count there is NO clamp: the usize subtraction wraps
(release semantics; with overflow checks the source panics instead) and
the whole fragment is kept with the ending appended. -/
theorem claim_c7_amended (name : Word) (r : Rule) (c : Case) :
    (r.modifier c = none → inflect name r c = name) ∧
    (∀ skip ending, r.modifier c = some (skip, ending) →
       skip ≤ name.length → name.length < USIZE →
       inflect name r c = name.take (name.length - skip) ++ ending) ∧
    (∀ skip ending, r.modifier c = some (skip, ending) →
       name.length < skip → skip < USIZE →
       inflect name r c = name ++ ending) := by
  refine ⟨?_, ?_, ?_⟩
  · intro h
    rw [inflect, h]
  · intro skip ending h hle hlen
    rw [inflect, h]
    show name.take (usize_sub name.length skip) ++ ending = _
    rw [usize_sub_eq_sub hle hlen]
  · intro skip ending h hgt hsk
    rw [inflect, h]
    show name.take (usize_sub name.length skip) ++ ending = _
    rw [List.take_of_length_le (le_usize_sub_of_lt hgt hsk)]

/-- A rule with an identity Dative modifier, a trim-1 Genitive modifier
and a trim-3 Accusative modifier. -/
def c7_wrule : Rule :=
  ⟨Gender.Male, [], [some (1, ['x']), none, some (3, ['y']), none, none], []⟩

/-- Claim C7 amended witness: the three branches at the fragment
"ab". -/
theorem claim_c7_amended_witness :
    inflect ['a', 'b'] c7_wrule Case.Dative = ['a', 'b'] ∧
    inflect ['a', 'b'] c7_wrule Case.Genitive =
      List.take ((['a', 'b'] : Word).length - 1) ['a', 'b'] ++ ['x'] ∧
    inflect ['a', 'b'] c7_wrule Case.Accusative = ['a', 'b'] ++ ['y'] :=
  ⟨(claim_c7_amended ['a', 'b'] c7_wrule Case.Dative).1 rfl,
   (claim_c7_amended ['a', 'b'] c7_wrule Case.Genitive).2.1 1 ['x'] rfl
     (by decide) (by decide),
   (claim_c7_amended ['a', 'b'] c7_wrule Case.Accusative).2.2 3 ['y'] rfl
     (by decide) (by decide)⟩

/-! ### Claim C8 -/

/-- Each part produced by the matched-or-unmatched mapping of
`inflect_name` is hyphen-free when the table's appended endings are. -/
theorem count_inflect_name_part {rl : RuleList} (h : hyphen_free_mods rl = true)
    (g : Gender) (c : Case) (il : Bool) {p : Word} (hp : p.count '-' = 0) :
    ((inflect_name_part g p c rl il).getD p).count '-' = 0 := by
  cases hpart : inflect_name_part g p c rl il with
  | none => simpa using hp
  | some w =>
    simp only [Option.getD_some]
    rw [inflect_name_part] at hpart
    simp only [Option.map_eq_some'] at hpart
    obtain ⟨r, hr, rfl⟩ := hpart
    have hrmem : r ∈ rl.exceptions ++ rl.suffixes := by
      rcases Option.or_eq_some.1 hr with hexc | ⟨-, hsuf⟩
      · exact List.mem_append_left _ (find_exception_mem hexc)
      · exact List.mem_append_right _ (find_suffix_mem hsuf)
    exact count_inflect hp (modifier_hyphen_free h hrmem c)

/-- `inflect_name` preserves the number of hyphens when the table's
appended endings contain none. -/
theorem count_inflect_name {rl : RuleList} (h : hyphen_free_mods rl = true)
    (g : Gender) (c : Case) (name : Word) :
    (inflect_name g name c rl).count '-' = name.count '-' := by
  show (join_hyphen ((split_hyphen name).enum.map fun ip =>
    (inflect_name_part g ip.2 c rl
      (ip.1 == (split_hyphen name).length - 1)).getD ip.2)).count '-' = name.count '-'
  have hlen : ((split_hyphen name).enum.map fun ip =>
      (inflect_name_part g ip.2 c rl
        (ip.1 == (split_hyphen name).length - 1)).getD ip.2).length =
      (split_hyphen name).length := by
    rw [List.length_map]
    exact List.enumFrom_length
  have hne : ((split_hyphen name).enum.map fun ip =>
      (inflect_name_part g ip.2 c rl
        (ip.1 == (split_hyphen name).length - 1)).getD ip.2) ≠ [] := by
    intro hcon
    have := congrArg List.length hcon
    rw [hlen] at this
    exact split_hyphen_ne_nil name (List.length_eq_zero.1 this)
  have hfree : ∀ q ∈ ((split_hyphen name).enum.map fun ip =>
      (inflect_name_part g ip.2 c rl
        (ip.1 == (split_hyphen name).length - 1)).getD ip.2), q.count '-' = 0 := by
    intro q hq
    obtain ⟨ip, hip, rfl⟩ := List.mem_map.1 hq
    have hip' : ip ∈ (split_hyphen name).enumFrom 0 := hip
    have hp0 : ip.2.count '-' = 0 :=
      count_split_hyphen name ip.2 (snd_mem_of_mem_enumFrom hip')
    exact count_inflect_name_part h g c _ hp0
  rw [count_join_hyphen _ hne hfree, hlen, length_split_hyphen]
  omega

/-- Claim C8: splitting a name yields exactly (number of hyphens) + 1
parts, and — given that the table appends no hyphens, which holds for
the crate's compiled table — the inflected output contains exactly as
many hyphens as the input name; in particular an unmatched hyphen-free
name is returned identically (claim C1). -/
theorem claim_c8 (rl : RuleList) (g : Gender) (c : Case) (name : Word)
    (h : hyphen_free_mods rl = true) :
    (split_hyphen name).length = name.count '-' + 1 ∧
    (inflect_name g name c rl).count '-' = name.count '-' :=
  ⟨length_split_hyphen name, count_inflect_name h g c name⟩

/-- A one-rule table whose only modifier appends the hyphen-free ending
"z". -/
def c8_rl : RuleList :=
  ⟨[], [⟨Gender.Androgynous, [['b']], [some (1, ['z']), none, none, none, none], []⟩]⟩

/-- Claim C8 witness: a two-part name against the sample table keeps its
single hyphen, with the first part actually inflected. -/
theorem claim_c8_witness :
    (split_hyphen ['a', 'b', '-', 'c']).length =
      (['a', 'b', '-', 'c'] : Word).count '-' + 1 ∧
    (inflect_name Gender.Male ['a', 'b', '-', 'c'] Case.Genitive c8_rl).count '-' =
      (['a', 'b', '-', 'c'] : Word).count '-' :=
  claim_c8 c8_rl Gender.Male Case.Genitive ['a', 'b', '-', 'c'] (by decide)

/-! ### Claim C9 -/

/-- Claim C9: gender compatibility is exactly the predicate
(rule gender = requested gender or rule gender = Androgynous): an
Androgynous rule matches every requested gender identically, and a
Male-only or Female-only rule never matches an Androgynous request. -/
theorem claim_c9 (r : Rule) :
    (∀ g : Gender, r.gender_matches g =
       (r.gender == g || r.gender == Gender.Androgynous)) ∧
    (r.gender = Gender.Androgynous → ∀ g : Gender, r.gender_matches g = true) ∧
    (r.gender = Gender.Male → r.gender_matches Gender.Androgynous = false) ∧
    (r.gender = Gender.Female → r.gender_matches Gender.Androgynous = false) := by
  refine ⟨fun g => rfl, ?_, ?_, ?_⟩
  · intro h g
    rw [Rule.gender_matches, h]
    cases g <;> decide
  · intro h
    rw [Rule.gender_matches, h]
    decide
  · intro h
    rw [Rule.gender_matches, h]
    decide

/-- Claim C9 witness: the three branches at concrete rules. -/
theorem claim_c9_witness :
    Rule.gender_matches ⟨Gender.Androgynous, [], [], []⟩ Gender.Male = true ∧
    Rule.gender_matches ⟨Gender.Male, [], [], []⟩ Gender.Androgynous = false ∧
    Rule.gender_matches ⟨Gender.Female, [], [], []⟩ Gender.Androgynous = false :=
  ⟨(claim_c9 ⟨Gender.Androgynous, [], [], []⟩).2.1 rfl Gender.Male,
   (claim_c9 ⟨Gender.Male, [], [], []⟩).2.2.1 rfl,
   (claim_c9 ⟨Gender.Female, [], [], []⟩).2.2.2 rfl⟩

/-! ### Claim C10 -/

/-- With a table whose test patterns are all non-empty, the empty name
matches nothing and passes through as the empty string. -/
theorem inflect_name_empty (rl : RuleList) (g : Gender) (c : Case)
    (h : nonempty_tests rl = true) : inflect_name g [] c rl = [] := by
  have hexc : find_exception rl.exceptions (toLowercase []) g true = none := by
    rw [find_exception]
    refine List.find?_eq_none.2 ?_
    intro e he hpred
    obtain ⟨hand, -⟩ := (Bool.and_eq_true _ _).mp hpred
    obtain ⟨hfull, -⟩ := (Bool.and_eq_true _ _).mp hand
    obtain ⟨t, ht, hbeq⟩ := List.any_eq_true.1 hfull
    have ht0 : t = [] := eq_of_beq hbeq
    have := List.all_eq_true.1 (List.all_eq_true.1 h e (List.mem_append_left _ he)) t ht
    rw [ht0] at this
    simp [List.isEmpty] at this
  have hsuf : find_suffix rl.suffixes (toLowercase []) g = none := by
    rw [find_suffix,
      show rl.suffixes.filter
          (fun s => s.suffix_matches (toLowercase []) && s.gender_matches g) = [] by
        refine List.filter_eq_nil_iff.2 ?_
        intro s hs hpred
        obtain ⟨hmatch, -⟩ := (Bool.and_eq_true _ _).mp hpred
        obtain ⟨t, ht, hsuft⟩ := List.any_eq_true.1 hmatch
        have ht0 : t = [] := List.suffix_nil.1 (List.isSuffixOf_iff_suffix.1 hsuft)
        have := List.all_eq_true.1 (List.all_eq_true.1 h s (List.mem_append_right _ hs)) t ht
        rw [ht0] at this
        simp [List.isEmpty] at this]
    rfl
  show join_hyphen ((split_hyphen ([] : Word)).enum.map fun ip =>
    (inflect_name_part g ip.2 c rl
      (ip.1 == (split_hyphen ([] : Word)).length - 1)).getD ip.2) = []
  have hpart : inflect_name_part g [] c rl (0 == (split_hyphen ([] : Word)).length - 1) =
      none := by
    rw [inflect_name_part]
    show ((find_exception rl.exceptions (toLowercase []) g _).or
      (find_suffix rl.suffixes (toLowercase []) g)).map _ = none
    rw [show (0 == (split_hyphen ([] : Word)).length - 1) = true from rfl, hexc, hsuf]
    rfl
  show join_hyphen [(inflect_name_part g [] c rl
    (0 == (split_hyphen ([] : Word)).length - 1)).getD []] = []
  rw [hpart]
  rfl

/-- Claim C10: when every test pattern in the table is non-empty, the
public operations applied to the empty string return the empty
string. -/
theorem claim_c10 (R : Rules) (g : Gender) (c : Case)
    (hl : nonempty_tests R.lastname = true)
    (hf : nonempty_tests R.firstname = true)
    (hm : nonempty_tests R.middlename = true) :
    firstname R g [] c = [] ∧ lastname R g [] c = [] ∧ middlename R g [] c = [] :=
  ⟨inflect_name_empty _ _ _ hf, inflect_name_empty _ _ _ hl,
    inflect_name_empty _ _ _ hm⟩

/-- A table with one lastname suffix rule whose test pattern "b" is
non-empty. -/
def c10_R : Rules :=
  ⟨⟨[], [⟨Gender.Androgynous, [['b']], [some (0, ['z']), none, none, none, none], []⟩]⟩,
   ⟨[], []⟩, ⟨[], []⟩⟩

/-- Claim C10 witness: the three operations on the empty string. -/
theorem claim_c10_witness :
    firstname c10_R Gender.Male [] Case.Genitive = [] ∧
    lastname c10_R Gender.Male [] Case.Genitive = [] ∧
    middlename c10_R Gender.Male [] Case.Genitive = [] :=
  claim_c10 c10_R Gender.Male Case.Genitive (by decide) (by decide) (by decide)

end Petrovich
